import Mathlib

/-!
Verification of the Stonks analytics core (backend/fetchers/analysis.py,
forecast.py, investment.py): the time-series aligner, the return/risk
statistics library, the trend-line detector, the GBM Monte Carlo forecaster
and the DCA investment simulator, shallowly embedded over `ℚ`.

Modelling conventions:
* IEEE-754 doubles are modelled by exact rationals (`ℚ`); every claim here
  is about exact arithmetic identities, branch structure or ordering, none
  about rounding.
* `np.sqrt` does not exist over `ℚ`; the one function whose result flows
  through a square root (`calculate_volatility`) is embedded through its
  square (`calculate_volatility_sq`), which determines it uniquely because
  the float value is the non-negative root.  Where only determinism is at
  stake (the GBM forecaster) `sqrt`/`log`/`exp` are abstract parameters.
* ISO date strings (`YYYY-MM-DD`, compared lexicographically by the source,
  which agrees with chronological order) are modelled by `ℕ` with its order.
* Python's stable `sorted` is modelled by `List.insertionSort`, which is
  also stable.
-/

namespace Stonks

/-- Arithmetic mean of a list of rationals (`np.mean`); `0` on `[]`
(the embedding never consults that case on a guarded path). -/
def mean (xs : List ℚ) : ℚ := xs.sum / (xs.length : ℚ)

/-- Population variance, divisor `n` — the default of `np.var` and the square
of the default of `np.std` (`ddof = 0`). -/
def npVar (xs : List ℚ) : ℚ :=
  (xs.map (fun x => (x - mean xs) ^ 2)).sum / (xs.length : ℚ)

/-- Off-diagonal entry of `np.cov(a, b)` with its default `bias=False`:
sample covariance with divisor `n - 1`. -/
def npCov (a b : List ℚ) : ℚ :=
  ((a.zip b).map (fun p => (p.1 - mean a) * (p.2 - mean b))).sum
    / ((a.length : ℚ) - 1)

/-- Modelled from the spec: the *sample* variance (divisor `n - 1`), i.e. the
square of the "sample standard deviation" the spec's volatility sentence
names.  Used only to compare against what the code computes. -/
def sampleVariance (xs : List ℚ) : ℚ :=
  (xs.map (fun x => (x - mean xs) ^ 2)).sum / ((xs.length : ℚ) - 1)

/-- Square of `calculate_volatility` (analysis.py lines 133-140).  The source
returns `np.std(returns)` (population std), multiplied by `sqrt(252)` when
annualizing, and `0.0` for fewer than 2 points; squaring turns `np.std` into
`npVar` and the `sqrt(252)` factor into `252`, and `0.0` into `0`. -/
def calculate_volatility_sq (returns : List ℚ) (annualize : Bool := true) : ℚ :=
  if returns.length < 2 then 0
  else
    let volSq := npVar returns
    if annualize then volSq * 252 else volSq

/-- The pair filter shared by `calculate_correlation` / `calculate_beta`
(analysis.py lines 149 and 163): keep the pairs where at least one of the two
entries is nonzero. -/
def validPairs (a m : List ℚ) : List (ℚ × ℚ) :=
  (a.zip m).filter (fun p => p.1 ≠ 0 ∨ p.2 ≠ 0)

/-- `calculate_beta` (analysis.py lines 158-175): `np.cov(a, m)[0,1] /
np.var(m)` over the valid pairs, with neutral default `1.0` on length
mismatch, fewer than 2 points, fewer than 2 valid pairs, or zero variance.
In exact arithmetic the `np.isnan` guard of line 175 never fires. -/
def calculate_beta (asset market : List ℚ) : ℚ :=
  if asset.length ≠ market.length ∨ asset.length < 2 then 1
  else
    let vp := validPairs asset market
    if vp.length < 2 then 1
    else
      let aR := vp.map Prod.fst
      let mR := vp.map Prod.snd
      let var := npVar mR
      if var = 0 then 1 else npCov aR mR / var

/-! Helper lemmas for the statistics claims. -/

theorem sum_sq_dev (xs : List ℚ) (c : ℚ) :
    (xs.map (fun x => (x - c) ^ 2)).sum
      = (xs.map (fun x => x ^ 2)).sum - 2 * c * xs.sum + (xs.length : ℚ) * c ^ 2 := by
  induction xs with
  | nil => simp
  | cons a t ih =>
      simp only [List.map_cons, List.sum_cons, List.length_cons, ih]
      push_cast
      ring

theorem npVar_eq_moments (xs : List ℚ) (h : xs ≠ []) :
    npVar xs = (xs.map (fun x => x ^ 2)).sum / (xs.length : ℚ)
      - (xs.sum / (xs.length : ℚ)) ^ 2 := by
  have hlen : xs.length ≠ 0 := by simpa using h
  have hn : (xs.length : ℚ) ≠ 0 := Nat.cast_ne_zero.mpr hlen
  rw [npVar, sum_sq_dev, mean]
  field_simp
  ring

theorem zip_self_eq_map (xs : List ℚ) : xs.zip xs = xs.map (fun a => (a, a)) := by
  induction xs with
  | nil => rfl
  | cons a t ih => simp [List.zip_cons_cons, ih]

theorem validPairs_self (xs : List ℚ) :
    validPairs xs xs = (xs.filter (fun a => a ≠ 0)).map (fun a => (a, a)) := by
  unfold validPairs
  rw [zip_self_eq_map, List.filter_map]
  congr 1
  apply List.filter_congr
  intro a _
  simp [Function.comp]

/-- C7 counterexample: at `returns = [0, 1/5]` the code's (squared) annualized
volatility is `252 * (population variance) = 63/25`, while the spec's "sample
standard deviation times sqrt 252" squares to `252 * (sample variance) =
126/25`.  Both volatilities are non-negative, so the squares differ iff the
values differ; the claim's formula is therefore false on the code. -/
theorem c7_volatility_counterexample :
    calculate_volatility_sq [0, 1/5] true = 63/25 ∧
      252 * sampleVariance [0, 1/5] = 126/25 ∧
      calculate_volatility_sq [0, 1/5] true ≠ 252 * sampleVariance [0, 1/5] := by
  have h1 : calculate_volatility_sq [0, 1/5] true = 63/25 := by
    norm_num [calculate_volatility_sq, npVar, mean]
  have h2 : 252 * sampleVariance [0, 1/5] = 126/25 := by
    norm_num [sampleVariance, mean]
  refine ⟨h1, h2, ?_⟩
  rw [h1, h2]
  norm_num

/-- C7 (amended): `calculate_volatility` with `annualize = true` equals the
**population** standard deviation (divisor `n`, the `np.std` default) times
`sqrt 252` — stated on squares: for at least 2 points its square is
`252 * (Σx²/n − (Σx/n)²)`, and for fewer than 2 points it is exactly `0`. -/
theorem c7_volatility_population_std (returns : List ℚ) :
    (2 ≤ returns.length →
      calculate_volatility_sq returns true
        = 252 * ((returns.map (fun x => x ^ 2)).sum / (returns.length : ℚ)
            - (returns.sum / (returns.length : ℚ)) ^ 2)) ∧
    (returns.length < 2 → calculate_volatility_sq returns true = 0) := by
  constructor
  · intro h2
    have hne : returns ≠ [] := by
      intro h; rw [h] at h2; simp at h2
    have hlt : ¬ returns.length < 2 := by omega
    have hval : calculate_volatility_sq returns true = npVar returns * 252 := by
      simp [calculate_volatility_sq, hlt]
    rw [hval, npVar_eq_moments returns hne]
    ring
  · intro h2
    simp [calculate_volatility_sq, h2]

/-- C7 witness: the amended statement evaluated at `returns = [0, 1/5]`. -/
theorem c7_volatility_population_std_witness :
    2 ≤ ([0, 1/5] : List ℚ).length ∧
      calculate_volatility_sq [0, 1/5] true
        = 252 * ((([0, 1/5] : List ℚ).map (fun x => x ^ 2)).sum
              / ((([0, 1/5] : List ℚ).length : ℚ))
            - ((([0, 1/5] : List ℚ).sum / (([0, 1/5] : List ℚ).length : ℚ))) ^ 2) :=
  ⟨by decide, (c7_volatility_population_std [0, 1/5]).1 (by decide)⟩

/-- C3 counterexample: for `x = [1/10, 1/5]` (equal lengths, 2 valid pairs,
variance `1/400 ≠ 0`), `beta(x, x) = 2`, because `np.cov` uses divisor
`n - 1 = 1` while `np.var` uses divisor `n = 2`.  `2` is not approximately
`1.0` — it misses by a full `1`. -/
theorem c3_beta_self_counterexample :
    calculate_beta [1/10, 1/5] [1/10, 1/5] = 2 ∧
      ¬ |calculate_beta [1/10, 1/5] [1/10, 1/5] - 1| ≤ 1/2 := by
  have h1 : calculate_beta [1/10, 1/5] [1/10, 1/5] = 2 := by
    norm_num [calculate_beta, validPairs, npVar, npCov, mean, List.zip]
  refine ⟨h1, ?_⟩
  rw [h1]
  norm_num

/-- C3 (amended): for a series `x` of at least 2 points whose nonzero entries
`y = x.filter (· ≠ 0)` number `n ≥ 2` and have nonzero population variance,
`beta(x, x) = n / (n - 1)` exactly — the sample-covariance (`n-1`) over
population-variance (`n`) mismatch, which approaches `1.0` only as `n` grows
and equals `2` at `n = 2`. -/
theorem c3_beta_self (x : List ℚ) (hlen : 2 ≤ x.length)
    (hn : 2 ≤ (x.filter (fun a => a ≠ 0)).length)
    (hvar : npVar (x.filter (fun a => a ≠ 0)) ≠ 0) :
    calculate_beta x x
      = ((x.filter (fun a => a ≠ 0)).length : ℚ)
          / (((x.filter (fun a => a ≠ 0)).length : ℚ) - 1) := by
  set y := x.filter (fun a => a ≠ 0) with hy
  have hguard : ¬ (x.length ≠ x.length ∨ x.length < 2) := by
    push_neg
    exact ⟨rfl, by omega⟩
  have hvp : validPairs x x = y.map (fun a => (a, a)) := validPairs_self x
  have hvplen : (validPairs x x).length = y.length := by rw [hvp, List.length_map]
  have hfst : (validPairs x x).map Prod.fst = y := by
    rw [hvp, List.map_map]
    have hcomp : (Prod.fst ∘ fun a : ℚ => (a, a)) = id := rfl
    rw [hcomp, List.map_id]
  have hsnd : (validPairs x x).map Prod.snd = y := by
    rw [hvp, List.map_map]
    have hcomp : (Prod.snd ∘ fun a : ℚ => (a, a)) = id := rfl
    rw [hcomp, List.map_id]
  have hnotlt : ¬ (validPairs x x).length < 2 := by omega
  simp only [calculate_beta, if_neg hguard, hfst, hsnd, if_neg hnotlt, if_neg hvar]
  -- npCov y y = S / (n - 1), npVar y = S / n with S the sum of squared deviations
  have hylen : (0 : ℚ) < (y.length : ℚ) := by
    exact_mod_cast Nat.lt_of_lt_of_le (by norm_num) hn
  have hn1 : ((y.length : ℚ) - 1) ≠ 0 := by
    have : (2 : ℚ) ≤ (y.length : ℚ) := by exact_mod_cast hn
    intro h
    nlinarith
  have hcov : npCov y y
      = (y.map (fun a => (a - mean y) ^ 2)).sum / ((y.length : ℚ) - 1) := by
    unfold npCov
    rw [zip_self_eq_map y, List.map_map]
    have hmaps : (y.map ((fun p : ℚ × ℚ => (p.1 - mean y) * (p.2 - mean y))
          ∘ fun a => (a, a)))
        = y.map (fun a => (a - mean y) ^ 2) := by
      apply List.map_congr_left
      intro a _
      simp [Function.comp, sq]
    rw [hmaps]
  have hS : (y.map (fun a => (a - mean y) ^ 2)).sum ≠ 0 := by
    intro h
    apply hvar
    unfold npVar
    rw [h, zero_div]
  rw [hcov]
  unfold npVar at hvar ⊢
  field_simp
  ring

/-- C3 witness: the amended statement at `x = [1/10, 1/5]` gives `2/1 = 2`. -/
theorem c3_beta_self_witness :
    calculate_beta [1/10, 1/5] [1/10, 1/5]
      = ((([1/10, 1/5] : List ℚ).filter (fun a => a ≠ 0)).length : ℚ)
          / (((([1/10, 1/5] : List ℚ).filter (fun a => a ≠ 0)).length : ℚ) - 1) :=
  c3_beta_self [1/10, 1/5] (by norm_num)
    (by norm_num [List.filter]) (by norm_num [npVar, mean, List.filter])

/-! VaR / CVaR (analysis.py lines 192-216) for C9. -/

/-- `np.percentile(xs, q)` with the default linear interpolation: on the
ascending sort `s` of `xs`, the virtual rank is `r = q/100 * (n-1)` and the
result interpolates between `s[⌊r⌋]` and `s[⌊r⌋+1]` with weight `r - ⌊r⌋`
(out-of-range reads, which numpy never performs for `0 ≤ q ≤ 100`, default
to `0`).  `insertionSort` models numpy's sort. -/
def npPercentile (xs : List ℚ) (q : ℚ) : ℚ :=
  let s := List.insertionSort (· ≤ ·) xs
  let r := q / 100 * ((s.length : ℚ) - 1)
  let g := r - (⌊r⌋ : ℚ)
  (1 - g) * s.getD (⌊r⌋.toNat) 0 + g * s.getD (⌊r⌋.toNat + 1) 0

/-- `calculate_var` (analysis.py lines 192-199): `(1-confidence)`-quantile of
the returns, as a percentage; `0.0` below 10 points. -/
def calculate_var (returns : List ℚ) (confidence : ℚ := 95/100) : ℚ :=
  if returns.length < 10 then 0
  else npPercentile returns ((1 - confidence) * 100) * 100

/-- `calculate_cvar` (analysis.py lines 202-216): mean of the returns at or
below the VaR threshold, as a percentage; the threshold itself if that set is
empty; `0.0` below 10 points. -/
def calculate_cvar (returns : List ℚ) (confidence : ℚ := 95/100) : ℚ :=
  if returns.length < 10 then 0
  else
    let thr := npPercentile returns ((1 - confidence) * 100)
    let tail := returns.filter (fun r => r ≤ thr)
    if tail.isEmpty then thr * 100 else mean tail * 100

theorem sum_le_length_mul (l : List ℚ) (c : ℚ) (h : ∀ x ∈ l, x ≤ c) :
    l.sum ≤ (l.length : ℚ) * c := by
  induction l with
  | nil => simp
  | cons a t ih =>
      simp only [List.sum_cons, List.length_cons]
      have ha := h a (by simp)
      have ht := ih (fun x hx => h x (by simp [hx]))
      push_cast
      nlinarith

/-- C9: for at least 10 returns and any confidence level in (0,1), the
conditional VaR is at most the VaR: the tail-mean of the returns at or below
the percentile threshold cannot exceed the threshold. -/
theorem c9_cvar_le_var (returns : List ℚ) (confidence : ℚ)
    (hlen : 10 ≤ returns.length) (hc0 : 0 < confidence) (hc1 : confidence < 1) :
    calculate_cvar returns confidence ≤ calculate_var returns confidence := by
  have hlt : ¬ returns.length < 10 := by omega
  simp only [calculate_cvar, calculate_var, if_neg hlt]
  set thr := npPercentile returns ((1 - confidence) * 100) with hthr
  set tail := returns.filter (fun r => r ≤ thr) with htail
  by_cases he : tail.isEmpty
  · simp [he]
  · have hne : tail ≠ [] := by
      intro h
      rw [h] at he
      exact he rfl
    have hpos : 0 < tail.length := List.length_pos.mpr hne
    have hposQ : (0 : ℚ) < (tail.length : ℚ) := by exact_mod_cast hpos
    have hmem : ∀ x ∈ tail, x ≤ thr := by
      intro x hx
      have := (List.mem_filter.mp hx).2
      exact of_decide_eq_true this
    have hsum : tail.sum ≤ (tail.length : ℚ) * thr := sum_le_length_mul tail thr hmem
    have hmean : mean tail ≤ thr := by
      rw [mean, div_le_iff hposQ]
      linarith [hsum]
    have : mean tail * 100 ≤ thr * 100 := by linarith
    simpa [he] using this

/-- C9 witness: a concrete 10-point return series at confidence 95%. -/
theorem c9_cvar_le_var_witness :
    calculate_cvar [-3, 1, 2, -1, 0, 4, -2, 5, 3, -4] (95/100)
      ≤ calculate_var [-3, 1, 2, -1, 0, 4, -2, 5, 3, -4] (95/100) :=
  c9_cvar_le_var _ _ (by decide) (by norm_num) (by norm_num)

/-! Drawdown series (analysis.py lines 267-294) for C10. -/

/-- First `None`-free positive price, used to initialise the running peak
(analysis.py lines 273-277). -/
def firstValidPrice : List (Option ℚ) → Option ℚ
  | [] => none
  | some v :: rest => if 0 < v then some v else firstValidPrice rest
  | none :: rest => firstValidPrice rest

/-- The replay loop of `calculate_drawdown_series` (analysis.py lines
282-292): raise the peak first, then record `(peak - price)/peak * 100`;
`None` or non-positive prices record `0` without touching the peak. -/
def drawdownLoop (peak : ℚ) : List (Option ℚ) → List ℚ
  | [] => []
  | some v :: rest =>
      if 0 < v then
        let peak1 := if peak < v then v else peak
        let dd := if 0 < peak1 then (peak1 - v) / peak1 else 0
        dd * 100 :: drawdownLoop peak1 rest
      else 0 :: drawdownLoop peak rest
  | none :: rest => 0 :: drawdownLoop peak rest

/-- `calculate_drawdown_series` (analysis.py lines 267-294).  The source's
`if not prices: return []` short-circuit is subsumed: an empty list has no
first valid price and `replicate 0 0 = []`. -/
def calculate_drawdown_series (prices : List (Option ℚ)) : List ℚ :=
  match firstValidPrice prices with
  | none => List.replicate prices.length 0
  | some peak0 => drawdownLoop peak0 prices

/-- A price observation the source treats as valid: present and positive. -/
def isValidPrice : Option ℚ → Bool
  | some v => decide (0 < v)
  | none => false

theorem getD_replicate_zero (n k : ℕ) : (List.replicate n (0 : ℚ)).getD k 0 = 0 := by
  induction n generalizing k with
  | zero => simp [List.replicate]
  | succ m ih =>
      match k with
      | 0 => simp [List.replicate]
      | k + 1 => simpa [List.replicate] using ih k

theorem firstValidPrice_pos (prices : List (Option ℚ)) (p : ℚ)
    (h : firstValidPrice prices = some p) : 0 < p := by
  induction prices with
  | nil => simp [firstValidPrice] at h
  | cons o rest ih =>
      match o with
      | none => exact ih (by simpa [firstValidPrice] using h)
      | some v =>
          by_cases hv : 0 < v
          · rw [firstValidPrice, if_pos hv] at h
            cases h
            exact hv
          · rw [firstValidPrice, if_neg hv] at h
            exact ih h

theorem drawdownLoop_length (l : List (Option ℚ)) :
    ∀ peak, (drawdownLoop peak l).length = l.length := by
  induction l with
  | nil => intro peak; rfl
  | cons o rest ih =>
      intro peak
      match o with
      | none => simp [drawdownLoop, ih]
      | some v =>
          by_cases hv : 0 < v
          · simp [drawdownLoop, if_pos hv, ih]
          · simp [drawdownLoop, if_neg hv, ih]

theorem drawdownLoop_bounds (l : List (Option ℚ)) :
    ∀ peak, 0 < peak → ∀ k, k < l.length →
      0 ≤ (drawdownLoop peak l).getD k 0 ∧ (drawdownLoop peak l).getD k 0 < 100 := by
  induction l with
  | nil => intro peak _ k hk; simp at hk
  | cons o rest ih =>
      intro peak hpeak k hk
      match o with
      | none =>
          match k with
          | 0 => simp [drawdownLoop]
          | k + 1 =>
              rw [drawdownLoop]
              exact ih peak hpeak k (by simpa using hk)
      | some v =>
          by_cases hv : 0 < v
          · rw [drawdownLoop, if_pos hv]
            have hpeak1 : 0 < (if peak < v then v else peak) := by
              by_cases hlt : peak < v
              · rw [if_pos hlt]; exact hv
              · rw [if_neg hlt]; exact hpeak
            match k with
            | 0 =>
                simp only [List.getD_cons_zero]
                set peak1 := if peak < v then v else peak with hp1
                have hvle : v ≤ peak1 ∨ (peak1 - v) / peak1 = 0 := by
                  by_cases hlt : peak < v
                  · left; rw [hp1, if_pos hlt]
                  · left; rw [hp1, if_neg hlt]; linarith
                rw [if_pos hpeak1]
                constructor
                · rcases hvle with hvle | hzero
                  · have : 0 ≤ (peak1 - v) / peak1 :=
                      div_nonneg (by linarith) (le_of_lt hpeak1)
                    linarith
                  · rw [hzero]; norm_num
                · have hlt1 : (peak1 - v) / peak1 < 1 := by
                    rw [div_lt_one hpeak1]
                    linarith
                  linarith
            | k + 1 =>
                simp only [List.getD_cons_succ]
                exact ih _ hpeak1 k (by simpa using hk)
          · rw [drawdownLoop, if_neg hv]
            match k with
            | 0 => simp
            | k + 1 =>
                simp only [List.getD_cons_succ]
                exact ih peak hpeak k (by simpa using hk)

theorem drawdownLoop_invalid (l : List (Option ℚ)) :
    ∀ peak k, k < l.length → isValidPrice (l.getD k none) = false →
      (drawdownLoop peak l).getD k 0 = 0 := by
  induction l with
  | nil => intro peak k hk _; simp at hk
  | cons o rest ih =>
      intro peak k hk hval
      match o with
      | none =>
          match k with
          | 0 => simp [drawdownLoop]
          | k + 1 =>
              rw [drawdownLoop]
              simp only [List.getD_cons_succ] at hval ⊢
              exact ih peak k (by simpa using hk) hval
      | some v =>
          by_cases hv : 0 < v
          · rw [drawdownLoop, if_pos hv]
            match k with
            | 0 =>
                simp only [List.getD_cons_zero] at hval
                simp [isValidPrice, hv] at hval
            | k + 1 =>
                simp only [List.getD_cons_succ] at hval ⊢
                exact ih _ k (by simpa using hk) hval
          · rw [drawdownLoop, if_neg hv]
            match k with
            | 0 => simp
            | k + 1 =>
                simp only [List.getD_cons_succ] at hval ⊢
                exact ih peak k (by simpa using hk) hval

/-- C10: for every input price list, the drawdown series has the same length
as the input, every element lies in `[0, 100)`, and `None`/non-positive
entries contribute exactly `0`. -/
theorem c10_drawdown_series_invariants (prices : List (Option ℚ)) :
    (calculate_drawdown_series prices).length = prices.length ∧
    (∀ k, k < prices.length →
      0 ≤ (calculate_drawdown_series prices).getD k 0 ∧
        (calculate_drawdown_series prices).getD k 0 < 100) ∧
    (∀ k, k < prices.length → isValidPrice (prices.getD k none) = false →
      (calculate_drawdown_series prices).getD k 0 = 0) := by
  unfold calculate_drawdown_series
  cases hfv : firstValidPrice prices with
  | none =>
      refine ⟨List.length_replicate _ _, ?_, ?_⟩
      · intro k hk
        rw [getD_replicate_zero]
        norm_num
      · intro k hk _
        exact getD_replicate_zero prices.length k
  | some peak0 =>
      have hpeak : 0 < peak0 := firstValidPrice_pos prices peak0 hfv
      exact ⟨drawdownLoop_length prices peak0,
        drawdownLoop_bounds prices peak0 hpeak,
        fun k hk hval => drawdownLoop_invalid prices peak0 k hk hval⟩

/-- C10 witness: the invariants instantiated on a concrete price list with a
gap, a rally and a non-positive entry. -/
theorem c10_drawdown_series_invariants_witness :
    (calculate_drawdown_series [none, some 4, some (-1), some 2, some 8]).length
        = ([none, some 4, some (-1), some 2, some 8] : List (Option ℚ)).length ∧
      (0 ≤ (calculate_drawdown_series [none, some 4, some (-1), some 2, some 8]).getD 3 0 ∧
        (calculate_drawdown_series [none, some 4, some (-1), some 2, some 8]).getD 3 0 < 100) ∧
      (calculate_drawdown_series [none, some 4, some (-1), some 2, some 8]).getD 2 0 = 0 :=
  ⟨(c10_drawdown_series_invariants _).1,
    (c10_drawdown_series_invariants _).2.1 3 (by decide),
    (c10_drawdown_series_invariants _).2.2 2 (by decide) (by norm_num [isValidPrice])⟩

/-! Time-series alignment (analysis.py lines 69-108) for C6.
Dates are modelled by `ℕ` (ISO date strings compare lexicographically, which
the spec notes is chronological order); a parsed dataset is a ticker paired
with its `(date, price)` observations. -/

/-- The per-ticker `prices_by_date` dictionary (analysis.py lines 82-88):
membership lookup with Python's last-write-wins insertion. -/
def lookupLast (obs : List (ℕ × ℚ)) (d : ℕ) : Option ℚ :=
  obs.foldl (fun acc p => if p.1 = d then some p.2 else acc) none

/-- Python dict insert for `ticker_data[ticker] = prices_by_date`
(analysis.py line 90): overwrite in place if the key exists, else append. -/
def upsert (m : List (String × List (ℕ × ℚ))) (k : String) (v : List (ℕ × ℚ)) :
    List (String × List (ℕ × ℚ)) :=
  if m.any (fun p => p.1 = k) then m.map (fun p => if p.1 = k then (k, v) else p)
  else m ++ [(k, v)]

/-- The `ticker_data` dictionary after the parsing loop of analysis.py
lines 78-90. -/
def buildTickerData (datasets : List (String × List (ℕ × ℚ))) :
    List (String × List (ℕ × ℚ)) :=
  datasets.foldl (fun m ds => upsert m ds.1 ds.2) []

/-- Every observation date of every dataset (the contents of the `all_dates`
set, as a list with duplicates). -/
def allDatesList (datasets : List (String × List (ℕ × ℚ))) : List ℕ :=
  (datasets.map (fun ds => ds.2.map Prod.fst)).join

/-- The forward-fill walk (analysis.py lines 98-104): carry `last_price`,
update it at observed dates, append the carried value at every date. -/
def forwardFill (obs : ℕ → Option ℚ) : Option ℚ → List ℕ → List (Option ℚ)
  | _, [] => []
  | last, d :: ds =>
      match obs d with
      | some p => some p :: forwardFill obs (some p) ds
      | none => last :: forwardFill obs last ds

/-- `align_timeseries` (analysis.py lines 69-108): sort the set of all dates
ascending (`Python sorted` over a set = dedup + stable sort) and forward-fill
every ticker's column along that axis. -/
def align_timeseries (datasets : List (String × List (ℕ × ℚ))) :
    List ℕ × List (String × List (Option ℚ)) :=
  let sortedDates := List.insertionSort (· ≤ ·) (allDatesList datasets).dedup
  (sortedDates,
    (buildTickerData datasets).map
      (fun p => (p.1, forwardFill (lookupLast p.2) none sortedDates)))

/-- Modelled from the spec's forward-fill law, independently of the walk: the
column value at position `k` is the observation at the *last* date of the
axis prefix `dates[0..k]` that carries one, and unset if none does. -/
def lastObsSpec (obs : ℕ → Option ℚ) (ds : List ℕ) : Option ℚ :=
  match (ds.filter (fun d => (obs d).isSome)).getLast? with
  | some d => obs d
  | none => none

theorem forwardFill_length (obs : ℕ → Option ℚ) (ds : List ℕ) :
    ∀ last, (forwardFill obs last ds).length = ds.length := by
  induction ds with
  | nil => intro last; rfl
  | cons d t ih =>
      intro last
      rw [forwardFill]
      cases obs d with
      | some p => simp [ih]
      | none => simp [ih]

theorem forwardFill_getD (obs : ℕ → Option ℚ) (ds : List ℕ) :
    ∀ (last : Option ℚ) (k : ℕ), k < ds.length →
      (forwardFill obs last ds).getD k none
        = match ((ds.take (k + 1)).filter (fun d => (obs d).isSome)).getLast? with
          | some d => obs d
          | none => last := by
  induction ds with
  | nil => intro last k hk; simp at hk
  | cons d t ih =>
      intro last k hk
      rw [forwardFill]
      match k with
      | 0 =>
          cases hod : obs d with
          | some p => simp [List.filter_cons, hod]
          | none => simp [List.filter_cons, hod]
      | k + 1 =>
          have hk' : k < t.length := by simpa using hk
          cases hod : obs d with
          | some p =>
              have hfc : ((d :: t).take (k + 1 + 1)).filter (fun d => (obs d).isSome)
                  = d :: (t.take (k + 1)).filter (fun d => (obs d).isSome) := by
                simp [List.take_succ_cons, List.filter_cons, hod]
              simp only [List.getD_cons_succ]
              rw [hfc, ih (some p) k hk']
              cases hft : ((t.take (k + 1)).filter (fun d => (obs d).isSome)) with
              | nil => simp [hod]
              | cons x xs =>
                  have hxs : (x :: xs) ≠ [] := by simp
                  obtain ⟨y, hy⟩ : ∃ y, (x :: xs).getLast? = some y :=
                    ⟨(x :: xs).getLast hxs, List.getLast?_eq_getLast _ hxs⟩
                  rw [List.getLast?_cons_cons, hy]
          | none =>
              have hfc : ((d :: t).take (k + 1 + 1)).filter (fun d => (obs d).isSome)
                  = (t.take (k + 1)).filter (fun d => (obs d).isSome) := by
                simp [List.take_succ_cons, List.filter_cons, hod]
              simp only [List.getD_cons_succ]
              rw [hfc, ih last k hk']

/-- C6: the alignment's date axis has exactly one entry per distinct input
date, is sorted strictly ascending (no duplicates), every output column has
the same length as the axis, and every column obeys the forward-fill law:
position `k` carries the last observation at or before `dates[k]`, and is
unset before the ticker's first observation. -/
theorem c6_align_timeseries (datasets : List (String × List (ℕ × ℚ))) :
    (align_timeseries datasets).1.length = (allDatesList datasets).toFinset.card ∧
    List.Sorted (· < ·) (align_timeseries datasets).1 ∧
    (∀ c ∈ (align_timeseries datasets).2, c.2.length = (align_timeseries datasets).1.length) ∧
    (∀ p ∈ buildTickerData datasets, ∀ k, k < (align_timeseries datasets).1.length →
      (forwardFill (lookupLast p.2) none (align_timeseries datasets).1).getD k none
        = lastObsSpec (lookupLast p.2) ((align_timeseries datasets).1.take (k + 1))) := by
  have hperm := List.perm_insertionSort (· ≤ ·) (allDatesList datasets).dedup
  have hsortle := List.sorted_insertionSort (· ≤ ·) (allDatesList datasets).dedup
  have hnodup : (List.insertionSort (· ≤ ·) (allDatesList datasets).dedup).Nodup :=
    hperm.nodup_iff.mpr (List.nodup_dedup _)
  refine ⟨?_, ?_, ?_, ?_⟩
  · show (List.insertionSort (· ≤ ·) (allDatesList datasets).dedup).length = _
    rw [hperm.length_eq, List.card_toFinset]
  · exact List.Sorted.lt_of_le hsortle hnodup
  · intro c hc
    simp only [align_timeseries, List.mem_map] at hc
    obtain ⟨p, _, rfl⟩ := hc
    exact forwardFill_length _ _ _
  · intro p _ k hk
    rw [forwardFill_getD _ _ none k hk, lastObsSpec]

/-- C6 witness: two tickers on interleaved calendars. -/
theorem c6_align_timeseries_witness :
    (align_timeseries [("A", [(1, 10), (3, 11)]), ("B", [(2, 5)])]).1.length
        = (allDatesList [("A", [(1, 10), (3, 11)]), ("B", [(2, 5)])]).toFinset.card ∧
      (∀ c ∈ (align_timeseries [("A", [(1, 10), (3, 11)]), ("B", [(2, 5)])]).2,
        c.2.length = (align_timeseries [("A", [(1, 10), (3, 11)]), ("B", [(2, 5)])]).1.length) ∧
      (forwardFill (lookupLast [(1, 10), (3, 11)]) none
          (align_timeseries [("A", [(1, 10), (3, 11)]), ("B", [(2, 5)])]).1).getD 1 none
        = lastObsSpec (lookupLast [(1, 10), (3, 11)])
            ((align_timeseries [("A", [(1, 10), (3, 11)]), ("B", [(2, 5)])]).1.take 2) :=
  ⟨(c6_align_timeseries _).1,
    (c6_align_timeseries _).2.2.1,
    (c6_align_timeseries _).2.2.2 ("A", [(1, 10), (3, 11)])
      (by simp [buildTickerData, upsert]) 1 (by simp [align_timeseries, allDatesList])⟩

/-! DCA investment simulator (investment.py lines 11-304) for C4 and C5.
Dates again are `ℕ`; the ISO-week and calendar-month grouping keys of the
source (`dt.isocalendar()[1]`-per-year and `date[:7]`) are abstract
parameters `weekKey` / `monthKey`, since the claims hold for every grouping
function. -/

/-- One `{date, price}` record of the parsed `data_points` list
(investment.py lines 52-61, prices already filtered positive). -/
structure DataPoint where
  date : ℕ
  price : ℚ
deriving DecidableEq

/-- The `frequency` request parameter (investment.py line 17). -/
inductive Frequency
  | once
  | daily
  | weekly
  | monthly
deriving DecidableEq

/-- First trading date of each new calendar period (investment.py lines
84-105): walk the points carrying the current period key and record each
date whose key differs; the caller passes the tail, mirroring the
`if i == 0: continue` skips. -/
def firstOfEachPeriod (key : ℕ → ℕ) : Option ℕ → List DataPoint → List ℕ
  | _, [] => []
  | cur, dp :: rest =>
      if some (key dp.date) ≠ cur then
        dp.date :: firstOfEachPeriod key (some (key dp.date)) rest
      else firstOfEachPeriod key cur rest

/-- The `investment_dates` set (investment.py lines 79-105): recurring
contribution dates, which always exclude the very first date.  Every branch
also requires `recurring_amount > 0`. -/
def investmentDates (weekKey monthKey : ℕ → ℕ) (freq : Frequency)
    (recurringAmount : ℚ) (dps : List DataPoint) : List ℕ :=
  if freq = .daily ∧ 0 < recurringAmount then dps.tail.map (fun dp => dp.date)
  else if freq = .weekly ∧ 0 < recurringAmount then
    firstOfEachPeriod weekKey none dps.tail
  else if freq = .monthly ∧ 0 < recurringAmount then
    firstOfEachPeriod monthKey none dps.tail
  else []

/-- The accumulator of the replay loop (investment.py lines 108-116). -/
structure ReplayState where
  shares : ℚ
  invested : ℚ
  numPurchases : ℕ
  isFirst : Bool
deriving DecidableEq

/-- One iteration of the replay loop (investment.py lines 122-151): the
initial lump sum converts to shares on the first date (which also clears
`is_first`), then a recurring buy happens whenever the date is a
contribution date and `recurring_amount > 0`. -/
def replayStep (initialAmount recurringAmount : ℚ) (invDates : List ℕ)
    (st : ReplayState) (dp : DataPoint) : ReplayState :=
  let st1 :=
    if st.isFirst = true ∧ 0 < initialAmount then
      { shares := st.shares + initialAmount / dp.price
        invested := st.invested + initialAmount
        numPurchases := st.numPurchases + 1
        isFirst := false }
    else st
  if dp.date ∈ invDates ∧ 0 < recurringAmount then
    { st1 with
        shares := st1.shares + recurringAmount / dp.price
        invested := st1.invested + recurringAmount
        numPurchases := st1.numPurchases + 1 }
  else st1

/-- The whole replay (investment.py lines 122-177), starting from zero
shares, zero invested and `is_first = True`. -/
def replay (initialAmount recurringAmount : ℚ) (invDates : List ℕ)
    (dps : List DataPoint) : ReplayState :=
  dps.foldl (replayStep initialAmount recurringAmount invDates) ⟨0, 0, 0, true⟩

/-- The result fields of `calculate_investment` the claims are about
(investment.py lines 179-198 and the return record at 259-304). -/
structure InvestmentResult where
  shares_bought : ℚ
  total_invested : ℚ
  num_purchases : ℕ
  final_value : ℚ
  total_return_pct : ℚ
  buy_hold_shares : ℚ
  buy_hold_final_value : ℚ
  buy_hold_return_pct : ℚ
deriving DecidableEq

/-- The successful branch of `calculate_investment` (investment.py lines
66-198): the source sorts `data_points` by date first; the embedding
receives the already-sorted list. -/
def investmentReport (weekKey monthKey : ℕ → ℕ)
    (initialAmount recurringAmount : ℚ) (freq : Frequency)
    (dps : List DataPoint) : InvestmentResult :=
  let startPrice := (dps.headD ⟨0, 0⟩).price
  let endPrice := (dps.getLastD ⟨0, 0⟩).price
  let invDates := investmentDates weekKey monthKey freq recurringAmount dps
  let st := replay initialAmount recurringAmount invDates dps
  let finalValue := st.shares * endPrice
  let totalReturnPct :=
    if 0 < st.invested then (finalValue - st.invested) / st.invested * 100 else 0
  let bhShares := if 0 < startPrice then st.invested / startPrice else 0
  let bhFinal := bhShares * endPrice
  let bhReturnPct :=
    if 0 < st.invested then (bhFinal - st.invested) / st.invested * 100 else 0
  { shares_bought := st.shares
    total_invested := st.invested
    num_purchases := st.numPurchases
    final_value := finalValue
    total_return_pct := totalReturnPct
    buy_hold_shares := bhShares
    buy_hold_final_value := bhFinal
    buy_hold_return_pct := bhReturnPct }

/-- `calculate_investment` (investment.py lines 11-304): fewer than 5 points
is the `"Insufficient historical data"` error result. -/
def calculate_investment (weekKey monthKey : ℕ → ℕ)
    (initialAmount recurringAmount : ℚ) (freq : Frequency)
    (dps : List DataPoint) : Option InvestmentResult :=
  if dps.length < 5 then none
  else some (investmentReport weekKey monthKey initialAmount recurringAmount freq dps)

theorem firstOfEachPeriod_sublist (key : ℕ → ℕ) (l : List DataPoint) :
    ∀ cur, List.Sublist (firstOfEachPeriod key cur l) (l.map (fun dp => dp.date)) := by
  induction l with
  | nil => intro cur; simp [firstOfEachPeriod]
  | cons dp rest ih =>
      intro cur
      rw [firstOfEachPeriod]
      by_cases h : some (key dp.date) ≠ cur
      · rw [if_pos h]
        exact (ih (some (key dp.date))).cons₂ dp.date
      · rw [if_neg h]
        exact (ih cur).cons dp.date

theorem investmentDates_sublist (weekKey monthKey : ℕ → ℕ) (freq : Frequency)
    (recurringAmount : ℚ) (dps : List DataPoint) :
    List.Sublist (investmentDates weekKey monthKey freq recurringAmount dps)
      (dps.tail.map (fun dp => dp.date)) := by
  unfold investmentDates
  split_ifs
  · exact List.Sublist.refl _
  · exact firstOfEachPeriod_sublist weekKey dps.tail none
  · exact firstOfEachPeriod_sublist monthKey dps.tail none
  · exact List.nil_sublist _

theorem investmentDates_nonpos (weekKey monthKey : ℕ → ℕ) (freq : Frequency)
    (recurringAmount : ℚ) (dps : List DataPoint) (h : ¬ 0 < recurringAmount) :
    investmentDates weekKey monthKey freq recurringAmount dps = [] := by
  simp [investmentDates, h]

/-- Accumulated `total_invested` after the replay loop: the initial lump sum
(when positive and at least one date exists) plus one `recurring_amount` per
processed point whose date is a contribution date. -/
theorem replay_invested (initialAmount recurringAmount : ℚ) (invDates : List ℕ)
    (dps : List DataPoint) :
    ∀ st : ReplayState,
      (dps.foldl (replayStep initialAmount recurringAmount invDates) st).invested
        = st.invested
          + (if st.isFirst = true ∧ 0 < initialAmount ∧ dps ≠ [] then initialAmount else 0)
          + recurringAmount *
              ((dps.filter
                (fun dp => decide (dp.date ∈ invDates ∧ 0 < recurringAmount))).length) := by
  induction dps with
  | nil => intro st; simp
  | cons dp rest ih =>
      intro st
      have hstep_inv :
          (replayStep initialAmount recurringAmount invDates st dp).invested
            = st.invested
              + (if st.isFirst = true ∧ 0 < initialAmount then initialAmount else 0)
              + (if dp.date ∈ invDates ∧ 0 < recurringAmount then recurringAmount
                 else 0) := by
        unfold replayStep
        by_cases hfirst : st.isFirst = true ∧ 0 < initialAmount
        · by_cases hrec : dp.date ∈ invDates ∧ 0 < recurringAmount
          · simp [hfirst, hrec]
          · simp [hfirst, hrec]
        · by_cases hrec : dp.date ∈ invDates ∧ 0 < recurringAmount
          · simp [hfirst, hrec]
          · simp [hfirst, hrec]
      have hstep_first :
          (replayStep initialAmount recurringAmount invDates st dp).isFirst
            = if st.isFirst = true ∧ 0 < initialAmount then false else st.isFirst := by
        unfold replayStep
        by_cases hfirst : st.isFirst = true ∧ 0 < initialAmount
        · by_cases hrec : dp.date ∈ invDates ∧ 0 < recurringAmount
          · simp [hfirst, hrec]
          · simp [hfirst, hrec]
        · by_cases hrec : dp.date ∈ invDates ∧ 0 < recurringAmount
          · simp [hfirst, hrec]
          · simp [hfirst, hrec]
      have hzero :
          (if (replayStep initialAmount recurringAmount invDates st dp).isFirst = true
              ∧ 0 < initialAmount ∧ rest ≠ [] then initialAmount else 0) = 0 := by
        rw [hstep_first]
        by_cases hfirst : st.isFirst = true ∧ 0 < initialAmount
        · rw [if_pos hfirst, if_neg]
          intro hcontra
          simp at hcontra
        · rw [if_neg hfirst, if_neg]
          intro hcontra
          exact hfirst ⟨hcontra.1, hcontra.2.1⟩
      rw [List.foldl_cons, ih, hzero, hstep_inv]
      have hconsne : (dp :: rest : List DataPoint) ≠ [] := by simp
      by_cases hrec : dp.date ∈ invDates ∧ 0 < recurringAmount
      · have hfc : ((dp :: rest).filter
              (fun q => decide (q.date ∈ invDates ∧ 0 < recurringAmount))).length
            = (rest.filter
                (fun q => decide (q.date ∈ invDates ∧ 0 < recurringAmount))).length
              + 1 := by
          simp [List.filter_cons, hrec]
        rw [hfc, if_pos hrec]
        by_cases hfirst : st.isFirst = true ∧ 0 < initialAmount
        · rw [if_pos hfirst, if_pos ⟨hfirst.1, hfirst.2, hconsne⟩]
          push_cast
          ring
        · rw [if_neg hfirst, if_neg (fun h => hfirst ⟨h.1, h.2.1⟩)]
          push_cast
          ring
      · have hfc : ((dp :: rest).filter
              (fun q => decide (q.date ∈ invDates ∧ 0 < recurringAmount))).length
            = (rest.filter
                (fun q => decide (q.date ∈ invDates ∧ 0 < recurringAmount))).length := by
          simp [List.filter_cons, hrec]
        rw [hfc, if_neg hrec]
        by_cases hfirst : st.isFirst = true ∧ 0 < initialAmount
        · rw [if_pos hfirst, if_pos ⟨hfirst.1, hfirst.2, hconsne⟩]
          ring
        · rw [if_neg hfirst, if_neg (fun h => hfirst ⟨h.1, h.2.1⟩)]
          ring

/-- With `recurring_amount = 0` the replay degenerates to the single initial
lump-sum purchase at the first date's price (or to a no-op). -/
theorem replay_rec_zero (initialAmount : ℚ) (invDates : List ℕ)
    (dps : List DataPoint) :
    ∀ st : ReplayState,
      dps.foldl (replayStep initialAmount 0 invDates) st
        = if st.isFirst = true ∧ 0 < initialAmount ∧ dps ≠ [] then
            { shares := st.shares + initialAmount / (dps.headD ⟨0, 0⟩).price
              invested := st.invested + initialAmount
              numPurchases := st.numPurchases + 1
              isFirst := false }
          else st := by
  induction dps with
  | nil => intro st; simp
  | cons dp rest ih =>
      intro st
      have hrec : ¬ (dp.date ∈ invDates ∧ 0 < (0 : ℚ)) := by simp
      by_cases hfirst : st.isFirst = true ∧ 0 < initialAmount
      · have hstep : replayStep initialAmount 0 invDates st dp
            = { shares := st.shares + initialAmount / dp.price
                invested := st.invested + initialAmount
                numPurchases := st.numPurchases + 1
                isFirst := false } := by
          simp [replayStep, hfirst, hrec]
        rw [List.foldl_cons, hstep, ih]
        simp [hfirst]
      · have hstep : replayStep initialAmount 0 invDates st dp = st := by
          simp [replayStep, hfirst, hrec]
        rw [List.foldl_cons, hstep, ih]
        have hcond : ¬ (st.isFirst = true ∧ 0 < initialAmount ∧ (dp :: rest) ≠ []) := by
          intro h
          exact hfirst ⟨h.1, h.2.1⟩
        rw [if_neg hcond]
        by_cases hrest : st.isFirst = true ∧ 0 < initialAmount ∧ rest ≠ []
        · exact absurd ⟨hrest.1, hrest.2.1⟩ hfirst
        · rw [if_neg hrest]

/-- Two `Nodup` date lists: filtering a list for membership in a sublist of
itself keeps exactly that sublist's elements, once each. -/
theorem filter_mem_length_of_sublist (ds D : List ℕ) (hnd : ds.Nodup)
    (hsub : List.Sublist D ds) :
    (ds.filter (fun d => decide (d ∈ D))).length = D.length := by
  have hDnd : D.Nodup := hnd.sublist hsub
  have hperm : (ds.filter (fun d => decide (d ∈ D))).Perm D := by
    rw [List.perm_ext_iff_of_nodup (hnd.filter _) hDnd]
    intro a
    simp only [List.mem_filter, decide_eq_true_eq]
    constructor
    · exact fun h => h.2
    · exact fun h => ⟨hsub.subset h, h⟩
  exact hperm.length_eq

/-- C4: for a valid (≥5 points, positive prices, distinct dates) history and
a non-negative initial amount, the report's `final_value` is exactly
`shares_bought × last price`, `total_invested` is exactly
`initial_amount + recurring_amount × (number of recurring contribution
dates)`, and the first date is never a contribution date. -/
theorem c4_investment_replay_invariant (weekKey monthKey : ℕ → ℕ)
    (initialAmount recurringAmount : ℚ) (freq : Frequency)
    (dps : List DataPoint) (h5 : 5 ≤ dps.length)
    (hnd : (dps.map (fun dp => dp.date)).Nodup)
    (hinit : 0 ≤ initialAmount) :
    calculate_investment weekKey monthKey initialAmount recurringAmount freq dps
        = some (investmentReport weekKey monthKey initialAmount recurringAmount freq dps) ∧
    (investmentReport weekKey monthKey initialAmount recurringAmount freq dps).final_value
        = (investmentReport weekKey monthKey initialAmount recurringAmount freq
            dps).shares_bought * (dps.getLastD ⟨0, 0⟩).price ∧
    (investmentReport weekKey monthKey initialAmount recurringAmount freq
          dps).total_invested
        = initialAmount + recurringAmount *
            ((investmentDates weekKey monthKey freq recurringAmount dps).length) ∧
    (dps.headD ⟨0, 0⟩).date ∉ investmentDates weekKey monthKey freq recurringAmount dps := by
  have hne : dps ≠ [] := by
    intro h
    rw [h] at h5
    simp at h5
  obtain ⟨d0, rest, rfl⟩ : ∃ d0 rest, dps = d0 :: rest := by
    cases dps with
    | nil => exact absurd rfl hne
    | cons d0 rest => exact ⟨d0, rest, rfl⟩
  have hlt : ¬ (d0 :: rest).length < 5 := by omega
  set invD := investmentDates weekKey monthKey freq recurringAmount (d0 :: rest) with hinvD
  have hsub : List.Sublist invD (rest.map (fun dp => dp.date)) :=
    investmentDates_sublist weekKey monthKey freq recurringAmount (d0 :: rest)
  have hndrest : (rest.map (fun dp => dp.date)).Nodup := (List.nodup_cons.mp hnd).2
  have hd0 : d0.date ∉ invD := by
    intro hmem
    exact (List.nodup_cons.mp hnd).1 (hsub.subset hmem)
  refine ⟨by rw [calculate_investment, if_neg hlt], ?_, ?_, hd0⟩
  · rfl
  · show (replay initialAmount recurringAmount invD (d0 :: rest)).invested = _
    rw [replay, replay_invested]
    have hfirst : ((⟨0, 0, 0, true⟩ : ReplayState).isFirst = true
        ∧ 0 < initialAmount ∧ (d0 :: rest) ≠ []) ↔ 0 < initialAmount := by
      simp
    by_cases hrec : 0 < recurringAmount
    · have hcount : (((d0 :: rest).filter
            (fun dp => decide (dp.date ∈ invD ∧ 0 < recurringAmount))).length)
          = invD.length := by
        have hpred : ∀ dp : DataPoint,
            (decide (dp.date ∈ invD ∧ 0 < recurringAmount))
              = decide (dp.date ∈ invD) := by
          intro dp
          simp [hrec]
        rw [List.filter_congr (fun dp _ => hpred dp)]
        have hfd0 : ((d0 :: rest).filter (fun dp => decide (dp.date ∈ invD)))
            = rest.filter (fun dp => decide (dp.date ∈ invD)) := by
          simp [List.filter_cons, hd0]
        rw [hfd0]
        have hmapfil : ((rest.map (fun dp => dp.date)).filter
              (fun d => decide (d ∈ invD))).length
            = (rest.filter ((fun d => decide (d ∈ invD)) ∘ fun dp => dp.date)).length := by
          rw [List.filter_map, List.length_map]
        have := filter_mem_length_of_sublist (rest.map (fun dp => dp.date)) invD
          hndrest hsub
        rw [hmapfil] at this
        exact this
      rw [hcount]
      rcases eq_or_lt_of_le hinit with hz | hpos
      · simp [← hz]
      · simp [hfirst, hpos]
    · rw [investmentDates_nonpos weekKey monthKey freq recurringAmount _ hrec] at hinvD
      rw [hinvD]
      rcases eq_or_lt_of_le hinit with hz | hpos
      · simp [← hz]
      · simp [hfirst, hpos]

/-- C4 witness: five monthly-keyed points, `initial = 1000`,
`recurring = 100`. -/
theorem c4_investment_replay_invariant_witness :
    calculate_investment (fun d => d / 7) (fun d => d / 30) 1000 100 .monthly
        [⟨0, 10⟩, ⟨1, 20⟩, ⟨40, 10⟩, ⟨41, 20⟩, ⟨70, 40⟩]
      = some (investmentReport (fun d => d / 7) (fun d => d / 30) 1000 100 .monthly
          [⟨0, 10⟩, ⟨1, 20⟩, ⟨40, 10⟩, ⟨41, 20⟩, ⟨70, 40⟩]) ∧
    (investmentReport (fun d => d / 7) (fun d => d / 30) 1000 100 .monthly
        [⟨0, 10⟩, ⟨1, 20⟩, ⟨40, 10⟩, ⟨41, 20⟩, ⟨70, 40⟩]).total_invested
      = 1000 + 100 *
          ((investmentDates (fun d => d / 7) (fun d => d / 30) .monthly 100
            [⟨0, 10⟩, ⟨1, 20⟩, ⟨40, 10⟩, ⟨41, 20⟩, ⟨70, 40⟩]).length) :=
  ⟨(c4_investment_replay_invariant (fun d => d / 7) (fun d => d / 30) 1000 100 .monthly
      [⟨0, 10⟩, ⟨1, 20⟩, ⟨40, 10⟩, ⟨41, 20⟩, ⟨70, 40⟩]
      (by decide) (by decide) (by norm_num)).1,
    (c4_investment_replay_invariant (fun d => d / 7) (fun d => d / 30) 1000 100 .monthly
      [⟨0, 10⟩, ⟨1, 20⟩, ⟨40, 10⟩, ⟨41, 20⟩, ⟨70, 40⟩]
      (by decide) (by decide) (by norm_num)).2.2.1⟩

/-- C5: with `recurring_amount = 0` (any frequency), the DCA result equals
the buy-and-hold baseline of the same report: identical share count, final
value and return percentage. -/
theorem c5_dca_equals_buy_hold (weekKey monthKey : ℕ → ℕ)
    (initialAmount : ℚ) (freq : Frequency) (dps : List DataPoint)
    (h5 : 5 ≤ dps.length) (hpos : ∀ dp ∈ dps, 0 < dp.price) :
    (investmentReport weekKey monthKey initialAmount 0 freq dps).shares_bought
        = (investmentReport weekKey monthKey initialAmount 0 freq dps).buy_hold_shares ∧
    (investmentReport weekKey monthKey initialAmount 0 freq dps).final_value
        = (investmentReport weekKey monthKey initialAmount 0 freq dps).buy_hold_final_value ∧
    (investmentReport weekKey monthKey initialAmount 0 freq dps).total_return_pct
        = (investmentReport weekKey monthKey initialAmount 0 freq dps).buy_hold_return_pct := by
  obtain ⟨d0, rest, rfl⟩ : ∃ d0 rest, dps = d0 :: rest := by
    cases dps with
    | nil => simp at h5
    | cons d0 rest => exact ⟨d0, rest, rfl⟩
  have hp0 : 0 < d0.price := hpos d0 (by simp)
  have hrepl := replay_rec_zero initialAmount
    (investmentDates weekKey monthKey freq 0 (d0 :: rest)) (d0 :: rest)
    ⟨0, 0, 0, true⟩
  set st := replay initialAmount 0
    (investmentDates weekKey monthKey freq 0 (d0 :: rest)) (d0 :: rest) with hst
  have hshare : st.shares = if 0 < initialAmount then initialAmount / d0.price else 0 := by
    rw [hst, replay, hrepl]
    by_cases hi : 0 < initialAmount
    · simp [hi]
    · simp [hi]
  have hinv : st.invested = if 0 < initialAmount then initialAmount else 0 := by
    rw [hst, replay, hrepl]
    by_cases hi : 0 < initialAmount
    · simp [hi]
    · simp [hi]
  have hbh : (if 0 < (d0.price : ℚ) then st.invested / d0.price else 0) = st.shares := by
    rw [if_pos hp0, hshare, hinv]
    by_cases hi : 0 < initialAmount
    · simp [hi]
    · simp [hi]
  refine ⟨?_, ?_, ?_⟩
  · show st.shares = if 0 < ((d0 :: rest).headD ⟨0, 0⟩).price
        then st.invested / ((d0 :: rest).headD ⟨0, 0⟩).price else 0
    rw [List.headD_cons]
    exact hbh.symm
  · show st.shares * ((d0 :: rest).getLastD ⟨0, 0⟩).price
        = (if 0 < ((d0 :: rest).headD ⟨0, 0⟩).price
            then st.invested / ((d0 :: rest).headD ⟨0, 0⟩).price else 0)
          * ((d0 :: rest).getLastD ⟨0, 0⟩).price
    rw [List.headD_cons, hbh]
  · show (if 0 < st.invested
          then (st.shares * ((d0 :: rest).getLastD ⟨0, 0⟩).price - st.invested)
              / st.invested * 100 else 0)
        = if 0 < st.invested
          then ((if 0 < ((d0 :: rest).headD ⟨0, 0⟩).price
                then st.invested / ((d0 :: rest).headD ⟨0, 0⟩).price else 0)
              * ((d0 :: rest).getLastD ⟨0, 0⟩).price - st.invested)
              / st.invested * 100 else 0
    rw [List.headD_cons, hbh]

/-- C5 witness: `recurring = 0`, `frequency = weekly`, five positive-priced
points. -/
theorem c5_dca_equals_buy_hold_witness :
    (investmentReport (fun d => d / 7) (fun d => d / 30) 500 0 .weekly
        [⟨0, 10⟩, ⟨1, 20⟩, ⟨2, 10⟩, ⟨3, 20⟩, ⟨4, 40⟩]).shares_bought
      = (investmentReport (fun d => d / 7) (fun d => d / 30) 500 0 .weekly
          [⟨0, 10⟩, ⟨1, 20⟩, ⟨2, 10⟩, ⟨3, 20⟩, ⟨4, 40⟩]).buy_hold_shares ∧
    (investmentReport (fun d => d / 7) (fun d => d / 30) 500 0 .weekly
        [⟨0, 10⟩, ⟨1, 20⟩, ⟨2, 10⟩, ⟨3, 20⟩, ⟨4, 40⟩]).final_value
      = (investmentReport (fun d => d / 7) (fun d => d / 30) 500 0 .weekly
          [⟨0, 10⟩, ⟨1, 20⟩, ⟨2, 10⟩, ⟨3, 20⟩, ⟨4, 40⟩]).buy_hold_final_value ∧
    (investmentReport (fun d => d / 7) (fun d => d / 30) 500 0 .weekly
        [⟨0, 10⟩, ⟨1, 20⟩, ⟨2, 10⟩, ⟨3, 20⟩, ⟨4, 40⟩]).total_return_pct
      = (investmentReport (fun d => d / 7) (fun d => d / 30) 500 0 .weekly
          [⟨0, 10⟩, ⟨1, 20⟩, ⟨2, 10⟩, ⟨3, 20⟩, ⟨4, 40⟩]).buy_hold_return_pct :=
  c5_dca_equals_buy_hold (fun d => d / 7) (fun d => d / 30) 500 .weekly
    [⟨0, 10⟩, ⟨1, 20⟩, ⟨2, 10⟩, ⟨3, 20⟩, ⟨4, 40⟩]
    (by decide) (by intro dp hdp; fin_cases hdp <;> norm_num)

/-! Trend-line detection (analysis.py lines 354-441) for C2.  The claim's
scenario has no missing prices, so the valid-data positions coincide with
the raw indices. -/

/-- Local minima under the source's symmetric window of 5 with inclusive
ties (analysis.py lines 376-385): index `i` qualifies iff `5 ≤ i`,
`i + 5 < n` and `prices[i] ≤ prices[i ± j]` for `j = 1..5`; recorded as
`(index, price)` in index order. -/
def localMinima (prices : List ℚ) : List (ℕ × ℚ) :=
  ((List.range prices.length).filter (fun i =>
      decide (5 ≤ i) && decide (i + 5 < prices.length) &&
        ([1, 2, 3, 4, 5].all (fun j =>
          decide (prices.getD i 0 ≤ prices.getD (i - j) 0) &&
            decide (prices.getD i 0 ≤ prices.getD (i + j) 0))))).map
    (fun i => (i, prices.getD i 0))

/-- Inner loop of `find_valid_pair` (analysis.py lines 389-392): scan the
candidates after `a` for the first `b` with
`b.index - a.index ≥ min_gap` — a **signed** difference. -/
def pairScanInner (minGap : ℤ) (a : ℕ × ℚ) :
    List (ℕ × ℚ) → Option ((ℕ × ℚ) × (ℕ × ℚ))
  | [] => none
  | b :: bs =>
      if minGap ≤ (b.1 : ℤ) - (a.1 : ℤ) then some (a, b)
      else pairScanInner minGap a bs

/-- `find_valid_pair` (analysis.py lines 387-393): first pair in scan order
(`i`, then `j > i`) over the price-sorted extrema whose signed index
difference reaches `min_gap`. -/
def find_valid_pair (minGap : ℤ) : List (ℕ × ℚ) → Option ((ℕ × ℚ) × (ℕ × ℚ))
  | [] => none
  | a :: rest =>
      match pairScanInner minGap a rest with
      | some p => some p
      | none => find_valid_pair minGap rest

/-- Support-line point selection of `find_trend_lines` (analysis.py lines
360-397): at least 20 valid points, local minima sorted by price ascending
(Python's stable sort, modelled by the stable `insertionSort`), then
`find_valid_pair`. -/
def find_trend_lines_support (prices : List ℚ) (minIntervalDays : ℕ) :
    Option ((ℕ × ℚ) × (ℕ × ℚ)) :=
  if prices.length < 20 then none
  else find_valid_pair (minIntervalDays : ℤ)
    (List.insertionSort (fun a b => a.2 ≤ b.2) (localMinima prices))

theorem pairScanInner_isSome (minGap : ℤ) (a : ℕ × ℚ) (bs : List (ℕ × ℚ)) :
    (pairScanInner minGap a bs).isSome
      ↔ ∃ b ∈ bs, minGap ≤ (b.1 : ℤ) - (a.1 : ℤ) := by
  induction bs with
  | nil => simp [pairScanInner]
  | cons b t ih =>
      rw [pairScanInner]
      by_cases hb : minGap ≤ (b.1 : ℤ) - (a.1 : ℤ)
      · simp [hb]
      · rw [if_neg hb]
        simp only [List.mem_cons]
        constructor
        · intro h
          obtain ⟨c, hc, hgap⟩ := ih.mp h
          exact ⟨c, Or.inr hc, hgap⟩
        · rintro ⟨c, hc | hc, hgap⟩
          · exact absurd (hc ▸ hgap) hb
          · exact ih.mpr ⟨c, hc, hgap⟩

theorem pairScanInner_some (minGap : ℤ) (a : ℕ × ℚ) (bs : List (ℕ × ℚ))
    (x y : ℕ × ℚ) (h : pairScanInner minGap a bs = some (x, y)) :
    x = a ∧ y ∈ bs ∧ minGap ≤ (y.1 : ℤ) - (x.1 : ℤ) := by
  induction bs with
  | nil => simp [pairScanInner] at h
  | cons b t ih =>
      rw [pairScanInner] at h
      by_cases hb : minGap ≤ (b.1 : ℤ) - (a.1 : ℤ)
      · rw [if_pos hb] at h
        obtain ⟨ha, hbb⟩ : a = x ∧ b = y := by
          have := Option.some.inj h
          exact ⟨congrArg Prod.fst this, congrArg Prod.snd this⟩
        subst ha
        subst hbb
        exact ⟨rfl, by simp, hb⟩
      · rw [if_neg hb] at h
        obtain ⟨hx, hy, hgap⟩ := ih h
        exact ⟨hx, by simp [hy], hgap⟩

/-- C2 (amended): `find_valid_pair` succeeds iff some *ordered* pair of the
price-sorted extrema has a **signed** index difference (later-in-sorted-order
index minus earlier) of at least `min_gap`, and any returned pair is such an
ordered pair.  It is not the absolute separation: a qualifying pair must be
chronologically ascending in sorted order. -/
theorem c2_find_valid_pair_signed_gap (minGap : ℤ) (l : List (ℕ × ℚ)) :
    ((find_valid_pair minGap l).isSome
      ↔ ∃ x y, List.Sublist [x, y] l ∧ minGap ≤ (y.1 : ℤ) - (x.1 : ℤ)) ∧
    (∀ x y, find_valid_pair minGap l = some (x, y) →
      List.Sublist [x, y] l ∧ minGap ≤ (y.1 : ℤ) - (x.1 : ℤ)) := by
  induction l with
  | nil =>
      constructor
      · simp [find_valid_pair]
      · intro x y h
        simp [find_valid_pair] at h
  | cons a rest ih =>
      have hstep : find_valid_pair minGap (a :: rest)
          = match pairScanInner minGap a rest with
            | some p => some p
            | none => find_valid_pair minGap rest := rfl
      constructor
      · cases hin : pairScanInner minGap a rest with
        | some p =>
            rw [hstep, hin]
            simp only [Option.isSome_some, true_iff]
            obtain ⟨x, y⟩ := p
            obtain ⟨hx, hy, hgap⟩ := pairScanInner_some minGap a rest x y hin
            refine ⟨x, y, ?_, hgap⟩
            subst hx
            exact (List.singleton_sublist.mpr hy).cons₂ x
        | none =>
            rw [hstep, hin]
            rw [ih.1]
            constructor
            · rintro ⟨x, y, hsub, hgap⟩
              exact ⟨x, y, hsub.cons a, hgap⟩
            · rintro ⟨x, y, hsub, hgap⟩
              cases hsub with
              | cons _ hsub' => exact ⟨x, y, hsub', hgap⟩
              | cons₂ _ hsub' =>
                  exfalso
                  have hy : y ∈ rest := List.singleton_sublist.mp hsub'
                  have : (pairScanInner minGap a rest).isSome :=
                    (pairScanInner_isSome minGap a rest).mpr ⟨y, hy, hgap⟩
                  rw [hin] at this
                  simp at this
      · intro x y h
        rw [hstep] at h
        cases hin : pairScanInner minGap a rest with
        | some p =>
            rw [hin] at h
            obtain rfl : p = (x, y) := Option.some.inj h
            obtain ⟨hx, hy, hgap⟩ := pairScanInner_some minGap a rest x y hin
            subst hx
            exact ⟨(List.singleton_sublist.mpr hy).cons₂ x, hgap⟩
        | none =>
            rw [hin] at h
            obtain ⟨hsub, hgap⟩ := ih.2 x y h
            exact ⟨hsub.cons a, hgap⟩

/-- C2 witness: when the lower-priced minimum is chronologically first
(indices 10 then 30), the signed difference `30 - 10 = 20 ≥ 15` and the pair
is found, in sorted order. -/
theorem c2_find_valid_pair_signed_gap_witness :
    List.Sublist [((10 : ℕ), (4 : ℚ)), (30, 5)] [((10 : ℕ), (4 : ℚ)), (30, 5)]
      ∧ (15 : ℤ) ≤ ((30 : ℕ) : ℤ) - ((10 : ℕ) : ℤ) :=
  (c2_find_valid_pair_signed_gap 15 [(10, 4), (30, 5)]).2 (10, 4) (30, 5) (by decide)

/-- The claim's exact scenario: a 40-point series whose only local minima
are `(10, 5.0)` and `(30, 4.0)`. -/
def c2ExamplePrices : List ℚ :=
  [15, 14, 13, 12, 11, 10, 9, 8, 7, 6,
   5, 6, 7, 8, 9, 10, 11, 12, 13, 14,
   15, 14, 13, 12, 11, 10, 9, 8, 7, 6,
   4, 5, 6, 7, 8, 9, 10, 11, 12, 13]

/-- C2 counterexample: exactly two local minima at indices 10 and 30 priced
5.0 and 4.0, `min_interval_days = 15`.  Sorted by price ascending the pair
is `[(30, 4), (10, 5)]`; its signed difference is `10 - 30 = -20 < 15`, so
`find_valid_pair` rejects it and the support line is `None` — not the line
through the two points that the claim (reading "separation" as `|30-10| =
20 ≥ 15`) predicts. -/
theorem c2_support_line_counterexample :
    localMinima c2ExamplePrices = [(10, 5), (30, 4)] ∧
      List.insertionSort (fun a b => a.2 ≤ b.2) (localMinima c2ExamplePrices)
        = [(30, 4), (10, 5)] ∧
      find_trend_lines_support c2ExamplePrices 15 = none := by
  refine ⟨by decide, by decide, by decide⟩

/-! GBM Monte Carlo forecaster (forecast.py lines 10-289) for C1 and C8.
The float functions `log`, `exp`, `sqrt` and the normal variates of the
seeded generator are abstract parameters: C1 is about determinism and C8
about which horizon entries appear, neither about transcendental values.
`seedFn n` is the global generator state right after `np.random.seed(n)`;
`gauss s k` is the `k`-th standard-normal draw from state `s`, with the
`(num_simulations, forecast_days)` array filled row-major. -/

/-- Per-path cumulative sums (`np.cumsum(random_walks, axis=1)`). -/
def cumsum (running : ℚ) : List ℚ → List ℚ
  | [] => []
  | x :: xs => (running + x) :: cumsum (running + x) xs

/-- The random-walk increments array of forecast.py lines 84-88: each entry
is `loc + scale * z` for the next seeded standard-normal draw `z`. -/
def gbmRandomWalks {R : Type} (gauss : R → ℕ → ℚ) (state : R)
    (loc scale : ℚ) (numSimulations forecastDays : ℕ) : List (List ℚ) :=
  (List.range numSimulations).map (fun i =>
    (List.range forecastDays).map (fun d =>
      loc + scale * gauss state (i * forecastDays + d)))

/-- The fixed-horizon VaR loop (forecast.py lines 129-135): an entry for
each horizon of `[21, 63, 126, 252]` **strictly** below `forecast_days`,
holding the 95% and 99% VaR of the day-`horizon` returns. -/
def varHorizons (pricePaths : List (List ℚ)) (currentPrice : ℚ)
    (forecastDays : ℕ) : List (ℕ × ℚ × ℚ) :=
  ([21, 63, 126, 252].filter (fun h => h < forecastDays)).map (fun h =>
    let horizonReturns :=
      pricePaths.map (fun row => (row.getD h 0 / currentPrice - 1) * 100)
    (h, npPercentile horizonReturns 5, npPercentile horizonReturns 1))

/-- The forecast outputs the claims are about: the simulated path matrix and
derived percentile, scenario, probability and horizon-VaR summaries. -/
structure GbmResult where
  price_paths : List (List ℚ)
  var_95 : ℚ
  var_99 : ℚ
  base_case_final : ℚ
  bull_case_final : ℚ
  bear_case_final : ℚ
  prob_positive : ℚ
  var_horizons : List (ℕ × ℚ × ℚ)

/-- The successful branch of `run_gbm_forecast` (forecast.py lines 46-289):
calibrate `(μ, σ)` from the log returns, reseed the global generator with
the constant 42 (line 81), draw the walk increments, cumulative-sum and
exponentiate them scaled by the current price, prepend the day-0 column, and
derive the summaries. -/
def gbmReport {R : Type} (sqrtFn logFn expFn : ℚ → ℚ)
    (seedFn : ℕ → R) (gauss : R → ℕ → ℚ)
    (prices : List ℚ) (forecastDays numSimulations : ℕ) : GbmResult :=
  let logReturns := (prices.zip prices.tail).map (fun p => logFn p.2 - logFn p.1)
  let dailyMean := mean logReturns
  let dailyVol := sqrtFn (npVar logReturns)
  let mu := dailyMean * 252
  let sigma := dailyVol * sqrtFn 252
  let dt : ℚ := 1 / 252
  let currentPrice := prices.getLastD 0
  let loc := (mu - sigma ^ 2 / 2) * dt
  let scale := sigma * sqrtFn dt
  let s := seedFn 42
  let walks := gbmRandomWalks gauss s loc scale numSimulations forecastDays
  let pricePaths := walks.map (fun row =>
    currentPrice :: (cumsum 0 row).map (fun c => currentPrice * expFn c))
  let finalPrices := pricePaths.map (fun row => row.getLastD 0)
  let finalReturns := finalPrices.map (fun p => (p / currentPrice - 1) * 100)
  { price_paths := pricePaths
    var_95 := npPercentile finalReturns 5
    var_99 := npPercentile finalReturns 1
    base_case_final := npPercentile finalPrices 50
    bull_case_final := npPercentile finalPrices 90
    bear_case_final := npPercentile finalPrices 10
    prob_positive := ((finalReturns.filter (fun r => 0 < r)).length : ℚ)
      / (finalReturns.length : ℚ) * 100
    var_horizons := varHorizons pricePaths currentPrice forecastDays }

/-- `run_gbm_forecast` (forecast.py lines 10-289): fewer than 20 valid
points is the `"Insufficient historical data"` error; `rngState` is the
global numpy generator state at call entry, which line 81 discards by
reseeding with the fixed constant 42. -/
def run_gbm_forecast {R : Type} (sqrtFn logFn expFn : ℚ → ℚ)
    (seedFn : ℕ → R) (gauss : R → ℕ → ℚ) (rngState : R)
    (prices : List ℚ) (forecastDays numSimulations : ℕ) : Option GbmResult :=
  if prices.length < 20 then none
  else some (gbmReport sqrtFn logFn expFn seedFn gauss prices forecastDays numSimulations)

/-- C1: the forecaster's output is independent of the random-generator state
it was called with — `np.random.seed(42)` runs before any draw, so two
invocations on the same history and parameters produce identical path
matrices and identical derived summaries, whatever states `s1`, `s2` the
global generator was in. -/
theorem c1_gbm_forecast_deterministic {R : Type} (sqrtFn logFn expFn : ℚ → ℚ)
    (seedFn : ℕ → R) (gauss : R → ℕ → ℚ) (s1 s2 : R)
    (prices : List ℚ) (forecastDays numSimulations : ℕ) :
    run_gbm_forecast sqrtFn logFn expFn seedFn gauss s1 prices
        forecastDays numSimulations
      = run_gbm_forecast sqrtFn logFn expFn seedFn gauss s2 prices
          forecastDays numSimulations := rfl

/-- C8 (amended): the forecast carries the `h`-day VaR entries exactly for
the horizons `h ∈ {21, 63, 126, 252}` with `h < forecast_days` — a strict
inequality, so the 252-day horizon is **excluded** at the default
`forecast_days = 252`. -/
theorem c8_var_horizon_iff {R : Type} (sqrtFn logFn expFn : ℚ → ℚ)
    (seedFn : ℕ → R) (gauss : R → ℕ → ℚ) (rngState : R)
    (prices : List ℚ) (forecastDays numSimulations : ℕ)
    (hlen : 20 ≤ prices.length) :
    run_gbm_forecast sqrtFn logFn expFn seedFn gauss rngState prices
        forecastDays numSimulations
      = some (gbmReport sqrtFn logFn expFn seedFn gauss prices
          forecastDays numSimulations) ∧
    ∀ h : ℕ,
      h ∈ ((gbmReport sqrtFn logFn expFn seedFn gauss prices
            forecastDays numSimulations).var_horizons.map Prod.fst)
        ↔ h ∈ [21, 63, 126, 252] ∧ h < forecastDays := by
  constructor
  · rw [run_gbm_forecast, if_neg (by omega)]
  · intro h
    show h ∈ (varHorizons _ _ forecastDays).map Prod.fst ↔ _
    rw [varHorizons, List.map_map]
    have hcomp : ∀ g : ℕ, (Prod.fst ∘ fun h : ℕ =>
        (h, npPercentile ((gbmReport sqrtFn logFn expFn seedFn gauss prices
              forecastDays numSimulations).price_paths.map
            (fun row => (row.getD h 0 / prices.getLastD 0 - 1) * 100)) 5,
          npPercentile ((gbmReport sqrtFn logFn expFn seedFn gauss prices
              forecastDays numSimulations).price_paths.map
            (fun row => (row.getD h 0 / prices.getLastD 0 - 1) * 100)) 1)) g = g :=
      fun g => rfl
    simp only [List.mem_map, List.mem_filter, Function.comp, decide_eq_true_eq]
    constructor
    · rintro ⟨g, ⟨hg, hlt⟩, rfl⟩
      exact ⟨hg, hlt⟩
    · rintro ⟨hg, hlt⟩
      exact ⟨h, ⟨hg, hlt⟩, rfl⟩

/-- A 20-point price history for the C8 witness. -/
def c8Prices : List ℚ :=
  [1, 2, 3, 4, 5, 6, 7, 8, 9, 10, 11, 12, 13, 14, 15, 16, 17, 18, 19, 20]

/-- C8 witness: at `forecast_days = 252`, the 126-day horizon is present. -/
theorem c8_var_horizon_iff_witness :
    run_gbm_forecast (fun q => q) (fun q => q) (fun q => q)
        (fun n : ℕ => n) (fun _ _ => 0) 0 c8Prices 252 1
      = some (gbmReport (fun q => q) (fun q => q) (fun q => q)
          (fun n : ℕ => n) (fun _ _ => 0) c8Prices 252 1) ∧
    (126 ∈ ((gbmReport (fun q => q) (fun q => q) (fun q => q)
          (fun n : ℕ => n) (fun _ _ => 0) c8Prices 252 1).var_horizons.map Prod.fst)
      ↔ 126 ∈ [21, 63, 126, 252] ∧ 126 < 252) :=
  ⟨(c8_var_horizon_iff (fun q => q) (fun q => q) (fun q => q)
      (fun n : ℕ => n) (fun _ _ => 0) 0 c8Prices 252 1 (by decide)).1,
    (c8_var_horizon_iff (fun q => q) (fun q => q) (fun q => q)
      (fun n : ℕ => n) (fun _ _ => 0) 0 c8Prices 252 1 (by decide)).2 126⟩

/-- C8 counterexample: the horizon filter is `horizon < forecast_days`
(forecast.py line 131), so at the default `forecast_days = 252` the horizon
`252` — although `252 ≤ 252` — produces no VaR entry. -/
theorem c8_var_horizon_counterexample :
    (varHorizons [] 100 252).map Prod.fst = [21, 63, 126] ∧
      252 ∉ (varHorizons [] 100 252).map Prod.fst ∧ 252 ≤ 252 := by
  refine ⟨by decide, by decide, by decide⟩

end Stonks
